import Mathlib

/-!
Verification of the deck-import and spaced-repetition core of the
dictation-app repository (src/main.py) against its natural-language
specification.  The Python functions `calculate_next_review`,
`get_next_card` and `parse_anki_deck` are shallowly embedded below;
timestamps are modelled as integer minute counts and the wall clock
(`datetime.now()`) as an explicit `now` argument.
-/

namespace DictationApp

/-- Embeds `calculate_next_review(interval, quality)` (src/main.py:134-138).
Times are minute counts: `timedelta(minutes=10)` is `10`,
`timedelta(days=interval * 2)` is `interval * 2 * 1440` minutes.  The Python
code reads the clock itself via `datetime.now()`; here the clock is the
explicit argument `now`. -/
def calculate_next_review (interval : Int) (quality : String) (now : Int) : Int :=
  if quality = "again" then now + 10 else now + interval * 2 * 1440

/-- Scheduling state of one card: the stored spacing interval (days) and the
next-review timestamp (minutes). -/
structure SchedState where
  interval : Int
  next_review : Int
deriving DecidableEq, Repr

/-- The update a review judgment performs on a card's scheduling state, as the
code implements it: the new due date comes from `calculate_next_review`
(src/main.py:134-138), and no statement anywhere in src/main.py modifies the
stored `interval`, so it is carried through unchanged. -/
def applyReview (s : SchedState) (quality : String) (now : Int) : SchedState :=
  { interval := s.interval, next_review := calculate_next_review s.interval quality now }

/-- A card record as built by `parse_anki_deck` (src/main.py:67-74): the
`card_data` dictionary with keys `id`, `front`, `back`, `audio_file`, `tags`,
`due`.  The `due` field holds the parse-time clock reading (the code stores
`datetime.now().isoformat()`). -/
structure Card where
  id : String
  front : List Char
  back : List Char
  audio_file : Option (List Char)
  tags : List Char
  due : Nat
deriving DecidableEq, Repr

/-- The keys of the `card_data` dictionary literal built for every surviving
row (src/main.py:67-74), in source order. -/
def cardKeys : List String :=
  ["id", "front", "back", "audio_file", "tags", "due"]

/-- Embeds `get_next_card(deck)` (src/main.py:140-147): `None` for an empty
deck, otherwise `deck[0]`.  The function takes no clock argument and never
inspects any card's `due` field. -/
def get_next_card (deck : List Card) : Option Card :=
  match deck with
  | [] => none
  | c :: _ => some c

/-- The ASCII unit separator `\x1f` on which Anki packs note fields
(src/main.py:53). -/
def usChar : Char := Char.ofNat 31

/-- The literal `[sound:` that opens an audio marker (src/main.py:60-65). -/
def soundLit : List Char := ['[', 's', 'o', 'u', 'n', 'd', ':']

/-- Whitespace characters removed by Python's `str.strip()` (ASCII range). -/
def isWsChar (c : Char) : Bool :=
  c = ' ' || c = '\t' || c = '\n' || c = '\r' || c = Char.ofNat 11 || c = Char.ofNat 12

/-- Python `str.strip()`: drop leading and trailing whitespace. -/
def trim (l : List Char) : List Char :=
  ((l.dropWhile isWsChar).reverse.dropWhile isWsChar).reverse

/-- Python substring containment `pat in hay` (the `'[sound:' in front` test,
src/main.py:60): some position of `hay` starts with `pat`. -/
def occursIn (pat : List Char) : List Char → Bool
  | [] => pat.isEmpty
  | c :: rest => pat.isPrefixOf (c :: rest) || occursIn pat rest

/-- The lazy body `(.*?)\]` of the regex `\[sound:(.*?)\]`: consume characters
up to the first `]`, failing on a newline (which `.` does not match) or on
end of input.  Returns the capture and the remainder after the `]`. -/
def captureTo : List Char → Option (List Char × List Char)
  | [] => none
  | c :: rest =>
    if c = ']' then some ([], rest)
    else if c = '\n' then none
    else
      match captureTo rest with
      | some (cap, rem) => some (c :: cap, rem)
      | none => none

/-- `re.search(r'\[sound:(.*?)\]', s)` (src/main.py:62): try each start
position left to right; at a position starting with `[sound:` take the
shortest capture up to a `]`.  On success returns the text before the match,
the capture (`group(1)`), and the text after the match. -/
def soundSearch : List Char → Option (List Char × List Char × List Char)
  | [] => none
  | c :: rest =>
    match (if soundLit.isPrefixOf (c :: rest) then captureTo ((c :: rest).drop 7) else none) with
    | some (cap, rem) => some ([], cap, rem)
    | none =>
      match soundSearch rest with
      | some (a, cap, rem) => some (c :: a, cap, rem)
      | none => none

/-- Fuelled worker for `re.sub(r'\[sound:.*?\]', '', s)`: delete the
leftmost match and continue scanning after it; `fuel` bounds the number of
deletions.  Each deleted match consumes at least one character of the scan,
so `s.length` fuel is always enough and the `0` case is never reached there
(the fixpoint equations `soundSub_of_none` / `soundSub_of_some` below
certify this). -/
def soundSubFuel : Nat → List Char → List Char
  | 0, s => s
  | fuel + 1, s =>
    match soundSearch s with
    | none => s
    | some (a, _, rem) => a ++ soundSubFuel fuel rem

/-- `re.sub(r'\[sound:.*?\]', '', s)` (src/main.py:65): repeatedly delete the
leftmost match and continue scanning after it. -/
def soundSub (s : List Char) : List Char :=
  soundSubFuel s.length s

/-- Python `str.split('\x1f')` (src/main.py:53): split on every occurrence of
the separator; the result is never empty. -/
def splitUS : List Char → List (List Char)
  | [] => [[]]
  | c :: rest =>
    if c = usChar then [] :: splitUS rest
    else
      match splitUS rest with
      | h :: t => (c :: h) :: t
      | [] => [[c]]

/-- One row of the `notes` relation as returned by the SQLite query
`SELECT notes.id, notes.flds, notes.tags FROM notes` (src/main.py:45-48). -/
structure Row where
  id : Int
  flds : List Char
  tags : List Char
deriving DecidableEq, Repr

/-- Outcome of reading the optional `media` file (src/main.py:84-94): a
parsed index→filename table, a `json.JSONDecodeError`, or any other
exception (whose message the code interpolates into a warning). -/
inductive MediaRead where
  | ok (entries : List (String × String))
  | jsonErr
  | otherErr (msg : String)
deriving DecidableEq, Repr

/-- The environment `parse_anki_deck` observes through the zip/SQLite layer:
either the byte stream is not a valid zip (`zipfile.BadZipFile`,
src/main.py:96), or it extracts to an archive in which `collection.anki2`
may or may not exist (src/main.py:35), the notes query either raises
`sqlite3.Error` or yields rows (src/main.py:45-50,77), and a `media` file may
be present (src/main.py:84-85). -/
inductive ApkgFile where
  | badZip
  | archive (hasCollection : Bool) (notesQuery : Except String (List Row))
      (mediaFile : Option MediaRead)
deriving Repr

/-- Everything `parse_anki_deck` produces: its Python return value (`cards`),
the messages displayed through `st.error` / `st.warning`, and the media table
stored into `st.session_state.media_files`.  Only `cards` is returned to the
caller (src/main.py:37,79,98,101,103). -/
structure ParseResult where
  cards : List Card
  errors : List String
  warnings : List String
  media : Option (List (String × String))
deriving DecidableEq, Repr

/-- The per-row body of the extraction loop (src/main.py:50-75): split the
packed fields on `\x1f`; a row with fewer than two fields yields no card;
otherwise detect `[sound:...]` in the first field, extract the capture as
`audio_file` and delete every marker (then strip), and build `card_data`. -/
def processRow (now : Nat) (r : Row) : Option Card :=
  match splitUS r.flds with
  | f0 :: f1 :: _ =>
    let fa :=
      if occursIn soundLit f0 then
        match soundSearch f0 with
        | some (_, cap, _) => (trim (soundSub f0), some cap)
        | none => (f0, (none : Option (List Char)))
      else (f0, none)
    some { id := toString r.id, front := trim fa.1, back := trim f1,
           audio_file := fa.2, tags := r.tags, due := now }
  | _ => none

/-- Embeds `parse_anki_deck` (src/main.py:17-103) over the environment model
`ApkgFile`, with the parse-time clock `now` explicit (the code stamps each
card with `datetime.now()`).  Every failure path displays a message and
returns `[]`; the media file is handled after the rows, non-fatally. -/
def parse_anki_deck (file : ApkgFile) (now : Nat) : ParseResult :=
  match file with
  | .badZip =>
    { cards := [],
      errors := ["Invalid .apkg file: The file is not a valid Anki deck package"],
      warnings := [], media := none }
  | .archive false _ _ =>
    { cards := [],
      errors := ["Invalid Anki deck file: collection.anki2 not found"],
      warnings := [], media := none }
  | .archive true (.error e) _ =>
    { cards := [], errors := ["Database error: " ++ e],
      warnings := [], media := none }
  | .archive true (.ok rows) m =>
    let cs := rows.filterMap (processRow now)
    match m with
    | none => { cards := cs, errors := [], warnings := [], media := none }
    | some (.ok entries) =>
      { cards := cs, errors := [], warnings := [], media := some entries }
    | some .jsonErr =>
      { cards := cs, errors := [],
        warnings := ["Could not parse media file information"], media := none }
    | some (.otherErr msg) =>
      { cards := cs, errors := [],
        warnings := ["Error processing media files: " ++ msg], media := none }

/-- The clock-independent content of a card: every field except `due`. -/
def cardContent (c : Card) : String × List Char × List Char × Option (List Char) × List Char :=
  (c.id, c.front, c.back, c.audio_file, c.tags)

/-- A front text assembled from a leading gap and a list of
`[sound:name]` markers each followed by a gap:
`assemble g [(x1,g1),(x2,g2)] = g ++ "[sound:" ++ x1 ++ "]" ++ g1 ++ "[sound:" ++ x2 ++ "]" ++ g2`. -/
def assemble (g : List Char) : List (List Char × List Char) → List Char
  | [] => g
  | (x, g') :: ms => g ++ (soundLit ++ (x ++ ']' :: assemble g' ms))

/-- The same text with every marker deleted: the gaps concatenated in order. -/
def stripAll (g : List Char) : List (List Char × List Char) → List Char
  | [] => g
  | (_, g') :: ms => g ++ stripAll g' ms

/-- A marker filename the regex can capture: no `]` (which would close the
marker early) and no newline (which `.` does not match). -/
def okName (x : List Char) : Bool :=
  x.all fun c => c != ']' && c != '\n'

/-- No occurrence of `[sound:` starts inside the first `g.length` positions
of `whole`. -/
def noStartB (g whole : List Char) : Bool :=
  (List.range g.length).all fun i => ! soundLit.isPrefixOf (whole.drop i)

/-- Well-formed marker decomposition: every filename is capturable and
`[sound:` occurs only at the marker positions (never inside a gap). -/
def wf (g : List Char) : List (List Char × List Char) → Bool
  | [] => noStartB g g
  | (x, g') :: ms => okName x && noStartB g (assemble g ((x, g') :: ms)) && wf g' ms

theorem processRow_isSome (now : Nat) (r : Row) :
    (processRow now r).isSome = true ↔ 2 ≤ (splitUS r.flds).length := by
  rcases hs : splitUS r.flds with _ | ⟨f0, _ | ⟨f1, t⟩⟩ <;> simp [processRow, hs]

theorem processRow_due (now : Nat) (r : Row) (c : Card)
    (h : processRow now r = some c) : c.due = now := by
  rcases hs : splitUS r.flds with _ | ⟨f0, _ | ⟨f1, t⟩⟩ <;> simp [processRow, hs] at h
  rw [← h]

theorem processRow_content (r : Row) (t1 t2 : Nat) :
    Option.map cardContent (processRow t1 r) = Option.map cardContent (processRow t2 r) := by
  rcases hs : splitUS r.flds with _ | ⟨f0, _ | ⟨f1, t⟩⟩ <;> simp [processRow, hs, cardContent]

theorem parse_ok_cards (rows : List Row) (m : Option MediaRead) (now : Nat) :
    (parse_anki_deck (.archive true (.ok rows) m) now).cards =
      rows.filterMap (processRow now) := by
  rcases m with _ | mr
  · rfl
  · rcases mr <;> rfl

/-- Claim C1: the spec's monotonicity property — repeated `Good` judgments
from a fixed `now` should give strictly increasing `next_review` values
because the stored interval is advanced between them.  The code never
advances the interval (no statement in src/main.py modifies it), so from
`interval = 1, now = 0` the first and the second `Good` both yield
`next_review = 2880` minutes (now + 2 days): the sequence is constant, not
strictly increasing. -/
theorem C1_repeated_good_constant :
    (applyReview (applyReview ⟨1, 0⟩ "good" 0) "good" 0).next_review =
      (applyReview ⟨1, 0⟩ "good" 0).next_review ∧
    (applyReview ⟨1, 0⟩ "good" 0).next_review = 2880 := by
  constructor <;> rfl

/-- Claim C2, counterexample: the `card_data` record built for every
surviving row (src/main.py:67-74) has keys `id, front, back, audio_file,
tags, due` only — no `interval`, no `ease_factor`, no `next_review` field is
ever assigned, refuting the claim that every imported card carries
`interval = 1`, `ease_factor = 2.5` and `next_review = now`. -/
theorem C2_no_scheduling_fields :
    "interval" ∉ cardKeys ∧ "ease_factor" ∉ cardKeys ∧ "next_review" ∉ cardKeys := by
  refine ⟨?_, ?_, ?_⟩ <;> decide

/-- Claim C2, amended: the only scheduling-related default the parser assigns
to a freshly imported card is `due = now` (the parse-time clock,
src/main.py:73); the record carries no `interval`, `ease_factor` or
`next_review` field. -/
theorem C2_default_due (file : ApkgFile) (now : Nat) (c : Card)
    (hc : c ∈ (parse_anki_deck file now).cards) :
    c.due = now ∧ "interval" ∉ cardKeys ∧ "ease_factor" ∉ cardKeys ∧
      "next_review" ∉ cardKeys := by
  refine ⟨?_, by decide, by decide, by decide⟩
  rcases file with _ | ⟨hasColl, q, m⟩
  · simp [parse_anki_deck] at hc
  · cases hasColl
    · simp [parse_anki_deck] at hc
    · rcases q with e | rows
      · simp [parse_anki_deck] at hc
      · rw [parse_ok_cards] at hc
        obtain ⟨r, -, hr⟩ := List.mem_filterMap.mp hc
        exact processRow_due now r c hr

/-- Witness for C2_default_due at a concrete one-row archive parsed at
`now = 5`. -/
theorem C2_default_due_witness :
    (Card.mk "1" ['a'] ['b'] none [] 5) ∈
      (parse_anki_deck (.archive true (.ok [⟨1, ['a', usChar, 'b'], []⟩]) none) 5).cards ∧
    ((Card.mk "1" ['a'] ['b'] none [] 5).due = 5 ∧ "interval" ∉ cardKeys ∧
      "ease_factor" ∉ cardKeys ∧ "next_review" ∉ cardKeys) :=
  ⟨by decide,
   C2_default_due (.archive true (.ok [⟨1, ['a', usChar, 'b'], []⟩]) none) 5
     (Card.mk "1" ['a'] ['b'] none [] 5) (by decide)⟩

/-- Claim C3: `get_next_card` (src/main.py:140-147) returns `deck[0]`
whenever the deck is non-empty, without ever reading a card's due date —
its docstring promises selection "based on due date".  Concretely: at query
time `now = 0` the single card's `due` is `100 > 0`, so by the claim the
result must be the no-card signal, yet the card itself is returned. -/
theorem C3_returns_card_not_due :
    get_next_card [Card.mk "1" [] [] none [] 100] =
      some (Card.mk "1" [] [] none [] 100) ∧
    ¬ (Card.mk "1" [] [] none [] 100).due ≤ 0 := by
  constructor
  · rfl
  · decide

/-- Claim C4, counterexample: each card's `due` field stores the wall-clock
reading at parse time (src/main.py:73), so parsing the very same archive at
clock minute 0 and again at clock minute 1 yields different card
sequences. -/
theorem C4_two_parses_differ :
    (parse_anki_deck (.archive true (.ok [⟨1, ['a', usChar, 'b'], []⟩]) none) 0).cards ≠
    (parse_anki_deck (.archive true (.ok [⟨1, ['a', usChar, 'b'], []⟩]) none) 1).cards := by
  decide

/-- Claim C4, amended: parsing the same archive bytes twice yields card
sequences identical in order and in every field except `due`, which records
the parse-time clock; in particular two parses at the same clock reading
agree exactly. -/
theorem C4_deterministic_mod_due (file : ApkgFile) (t1 t2 : Nat) :
    ((parse_anki_deck file t1).cards).map cardContent =
    ((parse_anki_deck file t2).cards).map cardContent := by
  rcases file with _ | ⟨hasColl, q, m⟩
  · rfl
  · cases hasColl
    · rfl
    · rcases q with e | rows
      · rfl
      · rw [parse_ok_cards, parse_ok_cards]
        induction rows with
        | nil => rfl
        | cons r rs ih =>
          have hr := processRow_content r t1 t2
          rw [List.filterMap_cons, List.filterMap_cons]
          cases h1 : processRow t1 r with
          | none =>
            cases h2 : processRow t2 r with
            | none => exact ih
            | some c2 => rw [h1, h2] at hr; simp at hr
          | some c1 =>
            cases h2 : processRow t2 r with
            | none => rw [h1, h2] at hr; simp at hr
            | some c2 =>
              rw [h1, h2] at hr
              simp only [Option.map_some'] at hr
              rw [List.map_cons, List.map_cons, ih]
              simp at hr
              rw [hr]

/-- Claim C5, counterexample: an invalid zip, a zip without
`collection.anki2`, a database error and an archive whose only note has a
single packed field all make `parse_anki_deck` return the same value `[]`
(src/main.py:37,79,98,103) — the caller, who receives only this list, cannot
distinguish the four failure kinds; the empty-deck case moreover displays no
message at all. -/
theorem C5_failures_indistinguishable :
    (parse_anki_deck .badZip 0).cards =
      (parse_anki_deck (.archive false (.ok []) none) 0).cards ∧
    (parse_anki_deck .badZip 0).cards =
      (parse_anki_deck (.archive true (.error "no such table: notes") none) 0).cards ∧
    (parse_anki_deck .badZip 0).cards =
      (parse_anki_deck (.archive true (.ok [⟨1, ['c'], []⟩]) none) 0).cards ∧
    (parse_anki_deck (.archive true (.ok [⟨1, ['c'], []⟩]) none) 0).errors = [] ∧
    (parse_anki_deck (.archive true (.ok [⟨1, ['c'], []⟩]) none) 0).warnings = [] := by
  refine ⟨rfl, rfl, ?_, rfl, rfl⟩
  decide

/-- Claim C5, amended: the parser returns the surviving card list for a
valid archive and the empty list on every failure path; each hard failure
(invalid zip, missing database, database error) is signalled only by a
displayed error message, while a deck in which no row survives validation
returns `[]` with no message — the failure kinds are not distinguishable
from the returned value. -/
theorem C5_failure_returns (now : Nat) (q : Except String (List Row))
    (m : Option MediaRead) (e : String) (rows : List Row) :
    (parse_anki_deck .badZip now).cards = [] ∧
    (parse_anki_deck .badZip now).errors =
      ["Invalid .apkg file: The file is not a valid Anki deck package"] ∧
    (parse_anki_deck (.archive false q m) now).cards = [] ∧
    (parse_anki_deck (.archive false q m) now).errors =
      ["Invalid Anki deck file: collection.anki2 not found"] ∧
    (parse_anki_deck (.archive true (.error e) m) now).cards = [] ∧
    (parse_anki_deck (.archive true (.error e) m) now).errors = ["Database error: " ++ e] ∧
    ((∀ r ∈ rows, (splitUS r.flds).length < 2) →
      (parse_anki_deck (.archive true (.ok rows) none) now).cards = [] ∧
      (parse_anki_deck (.archive true (.ok rows) none) now).errors = []) := by
  refine ⟨rfl, rfl, rfl, rfl, rfl, rfl, fun h => ⟨?_, rfl⟩⟩
  rw [parse_ok_cards, List.filterMap_eq_nil_iff]
  intro r hr
  cases hp : processRow now r with
  | none => rfl
  | some c =>
    have h2 := (processRow_isSome now r).mp (by rw [hp]; rfl)
    have h3 := h r hr
    omega

/-- Witness for C5_failure_returns: every quantifier instantiated, the
empty-deck hypothesis discharged for a one-note archive whose note has a
single packed field. -/
theorem C5_failure_returns_witness :
    (∀ r ∈ [Row.mk 1 ['c'] []], (splitUS r.flds).length < 2) ∧
    ((parse_anki_deck .badZip 0).cards = [] ∧
     (parse_anki_deck .badZip 0).errors =
       ["Invalid .apkg file: The file is not a valid Anki deck package"] ∧
     (parse_anki_deck (.archive false (.ok []) none) 0).cards = [] ∧
     (parse_anki_deck (.archive false (.ok []) none) 0).errors =
       ["Invalid Anki deck file: collection.anki2 not found"] ∧
     (parse_anki_deck (.archive true (.error "boom") none) 0).cards = [] ∧
     (parse_anki_deck (.archive true (.error "boom") none) 0).errors =
       ["Database error: " ++ "boom"] ∧
     ((∀ r ∈ [Row.mk 1 ['c'] []], (splitUS r.flds).length < 2) →
       (parse_anki_deck (.archive true (.ok [Row.mk 1 ['c'] []]) none) 0).cards = [] ∧
       (parse_anki_deck (.archive true (.ok [Row.mk 1 ['c'] []]) none) 0).errors = [])) :=
  ⟨by decide, C5_failure_returns 0 (.ok []) none "boom" [Row.mk 1 ['c'] []]⟩

/-- Claim C6, counterexample: an archive with `N = 2` notes of which `M = 1`
has at least two packed fields yields exactly one card, but the skipped row
is not reported anywhere — `parse_anki_deck` displays no error and no
warning and returns no skip count (the `else` branch of the field-count
check, src/main.py:56, is empty). -/
theorem C6_skipped_rows_unreported :
    (parse_anki_deck
      (.archive true (.ok [⟨1, ['a', usChar, 'b'], []⟩, ⟨2, ['c'], []⟩]) none) 0).cards.length = 1 ∧
    (parse_anki_deck
      (.archive true (.ok [⟨1, ['a', usChar, 'b'], []⟩, ⟨2, ['c'], []⟩]) none) 0).errors = [] ∧
    (parse_anki_deck
      (.archive true (.ok [⟨1, ['a', usChar, 'b'], []⟩, ⟨2, ['c'], []⟩]) none) 0).warnings = [] := by
  refine ⟨?_, rfl, rfl⟩
  decide

/-- Claim C6, amended: for a valid archive with rows `rows`, the parser
yields exactly as many cards as there are rows with at least two packed
fields after splitting on `\x1f`; rows that fail the check are dropped
silently — no skipped-row count is reported on any output channel. -/
theorem C6_card_count (rows : List Row) (now : Nat) :
    (parse_anki_deck (.archive true (.ok rows) none) now).cards.length =
      (rows.filter fun r => decide (2 ≤ (splitUS r.flds).length)).length ∧
    (parse_anki_deck (.archive true (.ok rows) none) now).errors = [] ∧
    (parse_anki_deck (.archive true (.ok rows) none) now).warnings = [] := by
  refine ⟨?_, rfl, rfl⟩
  rw [parse_ok_cards]
  induction rows with
  | nil => rfl
  | cons r rs ih =>
    rw [List.filterMap_cons, List.filter_cons]
    cases hp : processRow now r with
    | none =>
      have h2 : ¬ 2 ≤ (splitUS r.flds).length := by
        intro hle
        have := (processRow_isSome now r).mpr hle
        rw [hp] at this
        simp at this
      rw [if_neg (by simpa using h2)]
      exact ih
    | some c =>
      rw [if_pos (by
        have := (processRow_isSome now r).mp (by rw [hp]; rfl)
        simpa using this)]
      simp only [List.length_cons]
      rw [ih]

/-- Claim C8: on an `Again` judgment the code returns
`now + timedelta(minutes=10)` (src/main.py:135-136), exactly — hence never
below — `now + 10` minutes, and the stored interval is untouched. -/
theorem C8_again_frame (s : SchedState) (now : Int) :
    (applyReview s "again" now).next_review = now + 10 ∧
    now + 10 ≤ (applyReview s "again" now).next_review ∧
    (applyReview s "again" now).interval = s.interval := by
  refine ⟨rfl, ?_, rfl⟩
  exact le_of_eq rfl

/-- Claim C9: `calculate_next_review` branches only on
`quality == "again"` (src/main.py:135); every other string — `"good"` or
any invalid outcome — falls into the `else` branch and is scheduled as
`Good`, `now + interval * 2` days, with no rejection. -/
theorem C9_invalid_quality_as_good (i now : Int) (q : String) (h : q ≠ "again") :
    calculate_next_review i q now = calculate_next_review i "good" now ∧
    calculate_next_review i q now = now + i * 2 * 1440 := by
  constructor
  · simp only [calculate_next_review, if_neg h]
    rw [if_neg (by decide : ¬ ("good" : String) = "again")]
  · simp only [calculate_next_review, if_neg h]

/-- Witness for C9 at the invalid quality string "banana". -/
theorem C9_invalid_quality_witness :
    ("banana" : String) ≠ "again" ∧
    (calculate_next_review 3 "banana" 0 = calculate_next_review 3 "good" 0 ∧
     calculate_next_review 3 "banana" 0 = 0 + 3 * 2 * 1440) :=
  ⟨by decide, C9_invalid_quality_as_good 3 0 "banana" (by decide)⟩

theorem captureTo_lt : ∀ (l cap rem : List Char), captureTo l = some (cap, rem) →
    rem.length < l.length := by
  intro l
  induction l with
  | nil => intro cap rem h; simp [captureTo] at h
  | cons c rest ih =>
    intro cap rem h
    by_cases h1 : c = ']'
    · simp [captureTo, h1] at h
      obtain ⟨-, hr⟩ := h
      subst hr
      simp only [List.length_cons]
      omega
    · by_cases h2 : c = '\n'
      · simp [captureTo, h1, h2] at h
      · simp only [captureTo, if_neg h1, if_neg h2] at h
        cases hc : captureTo rest with
        | none => rw [hc] at h; simp at h
        | some p =>
          obtain ⟨cap', rem'⟩ := p
          rw [hc] at h
          simp only [Option.some.injEq, Prod.mk.injEq] at h
          obtain ⟨-, hrem⟩ := h
          subst hrem
          have := ih cap' rem' hc
          simp only [List.length_cons]
          omega

theorem soundSearch_rem_lt : ∀ (t a x rem : List Char),
    soundSearch t = some (a, x, rem) → rem.length < t.length := by
  intro t
  induction t with
  | nil => intro a x rem h; simp [soundSearch] at h
  | cons c rest ih =>
    intro a x rem h
    simp only [soundSearch] at h
    cases hif : (if soundLit.isPrefixOf (c :: rest) then captureTo ((c :: rest).drop 7) else none) with
    | some p =>
      obtain ⟨cap, rem'⟩ := p
      rw [hif] at h
      simp only [Option.some.injEq, Prod.mk.injEq] at h
      by_cases hp : soundLit.isPrefixOf (c :: rest)
      · rw [if_pos hp] at hif
        have hlt := captureTo_lt _ _ _ hif
        have hdl : ((c :: rest).drop 7).length = (c :: rest).length - 7 :=
          List.length_drop 7 (c :: rest)
        obtain ⟨-, -, hr⟩ := h
        subst hr
        omega
      · rw [if_neg hp] at hif
        exact absurd hif (by simp)
    | none =>
      rw [hif] at h
      cases hs : soundSearch rest with
      | none => rw [hs] at h; simp at h
      | some q =>
        obtain ⟨a', x', rem'⟩ := q
        rw [hs] at h
        simp only [Option.some.injEq, Prod.mk.injEq] at h
        have := ih a' x' rem' hs
        obtain ⟨-, -, hr⟩ := h
        subst hr
        simp only [List.length_cons]
        omega

theorem soundSubFuel_eq : ∀ (f1 f2 : Nat) (s : List Char),
    s.length ≤ f1 → s.length ≤ f2 → soundSubFuel f1 s = soundSubFuel f2 s := by
  intro f1
  induction f1 with
  | zero =>
    intro f2 s h1 _
    have hs : s = [] := List.length_eq_zero.mp (Nat.le_zero.mp h1)
    subst hs
    cases f2 <;> rfl
  | succ n ih =>
    intro f2 s h1 h2
    cases f2 with
    | zero =>
      have hs : s = [] := List.length_eq_zero.mp (Nat.le_zero.mp h2)
      subst hs
      rfl
    | succ m =>
      show (match soundSearch s with
            | none => s
            | some (a, _, rem) => a ++ soundSubFuel n rem) =
          (match soundSearch s with
            | none => s
            | some (a, _, rem) => a ++ soundSubFuel m rem)
      cases hs : soundSearch s with
      | none => rfl
      | some p =>
        obtain ⟨a, x, rem⟩ := p
        have hlt := soundSearch_rem_lt s a x rem hs
        dsimp only
        rw [ih m rem (by omega) (by omega)]

theorem soundSub_of_none (s : List Char) (h : soundSearch s = none) : soundSub s = s := by
  show soundSubFuel s.length s = s
  cases hl : s.length with
  | zero => rfl
  | succ n =>
    show (match soundSearch s with
          | none => s
          | some (a, _, rem) => a ++ soundSubFuel n rem) = s
    rw [h]

theorem soundSub_of_some (s a x rem : List Char) (h : soundSearch s = some (a, x, rem)) :
    soundSub s = a ++ soundSub rem := by
  have hlt := soundSearch_rem_lt s a x rem h
  show soundSubFuel s.length s = a ++ soundSubFuel rem.length rem
  cases hl : s.length with
  | zero => omega
  | succ n =>
    show (match soundSearch s with
          | none => s
          | some (a, _, rem) => a ++ soundSubFuel n rem) = a ++ soundSubFuel rem.length rem
    rw [h]
    dsimp only
    rw [soundSubFuel_eq n rem.length rem (by omega) (Nat.le_refl _)]


theorem soundSearch_cons_eq (c : Char) (rest : List Char) :
    soundSearch (c :: rest) =
      (match (if soundLit.isPrefixOf (c :: rest) then captureTo ((c :: rest).drop 7) else none) with
      | some (cap, rem) => some ([], cap, rem)
      | none =>
        match soundSearch rest with
        | some (a, cap, rem) => some (c :: a, cap, rem)
        | none => none) := rfl

theorem soundSearch_pos (c : Char) (rest cap rem : List Char)
    (h1 : soundLit.isPrefixOf (c :: rest) = true)
    (h2 : captureTo ((c :: rest).drop 7) = some (cap, rem)) :
    soundSearch (c :: rest) = some ([], cap, rem) := by
  rw [soundSearch_cons_eq, if_pos h1, h2]

theorem soundSearch_neg (c : Char) (rest : List Char)
    (h1 : soundLit.isPrefixOf (c :: rest) = false) :
    soundSearch (c :: rest) =
      (match soundSearch rest with
      | some (a, cap, rem) => some (c :: a, cap, rem)
      | none => none) := by
  rw [soundSearch_cons_eq, if_neg (by simp [h1])]

theorem okName_cons (c : Char) (x : List Char) (h : okName (c :: x) = true) :
    (¬ c = ']') ∧ (¬ c = '\n') ∧ okName x = true := by
  simp only [okName, List.all_cons, Bool.and_eq_true, bne_iff_ne, ne_eq] at h
  exact ⟨h.1.1, h.1.2, h.2⟩

theorem captureTo_ok (x rest : List Char) (hx : okName x = true) :
    captureTo (x ++ ']' :: rest) = some (x, rest) := by
  induction x with
  | nil => rfl
  | cons c x' ih =>
    obtain ⟨h1, h2, hx'⟩ := okName_cons c x' hx
    show captureTo (c :: (x' ++ ']' :: rest)) = some (c :: x', rest)
    simp only [captureTo, if_neg h1, if_neg h2, ih hx']

theorem soundLit_isPrefixOf (z : List Char) : soundLit.isPrefixOf (soundLit ++ z) = true := by
  show List.isPrefixOf ['[', 's', 'o', 'u', 'n', 'd', ':']
    ('[' :: 's' :: 'o' :: 'u' :: 'n' :: 'd' :: ':' :: z) = true
  simp [List.isPrefixOf_cons₂]

theorem soundSearch_marker (x rest : List Char) (hx : okName x = true) :
    soundSearch (soundLit ++ (x ++ ']' :: rest)) = some ([], x, rest) :=
  soundSearch_pos '[' ('s' :: 'o' :: 'u' :: 'n' :: 'd' :: ':' :: (x ++ ']' :: rest)) x rest
    (soundLit_isPrefixOf _) (captureTo_ok x rest hx)

theorem soundSearch_append (g rest : List Char)
    (hg : ∀ i < g.length, soundLit.isPrefixOf ((g ++ rest).drop i) = false) :
    soundSearch (g ++ rest) =
      (match soundSearch rest with
      | some (a, cap, rem) => some (g ++ a, cap, rem)
      | none => none) := by
  induction g with
  | nil =>
    show soundSearch rest = _
    cases hs : soundSearch rest with
    | none => rfl
    | some p => obtain ⟨a, cap, rem⟩ := p; simp
  | cons c g' ih =>
    have h0 : soundLit.isPrefixOf (c :: (g' ++ rest)) = false := by
      have := hg 0 (by simp)
      simpa using this
    rw [List.cons_append, soundSearch_neg c (g' ++ rest) h0]
    rw [ih (fun i hi => by
      have := hg (i + 1) (by simp; omega)
      simpa using this)]
    cases hs : soundSearch rest with
    | none => rfl
    | some p => obtain ⟨a, cap, rem⟩ := p; simp

theorem soundSearch_none_of (s : List Char)
    (h : ∀ i < s.length, soundLit.isPrefixOf (s.drop i) = false) :
    soundSearch s = none := by
  induction s with
  | nil => rfl
  | cons c rest ih =>
    rw [soundSearch_neg c rest (by simpa using h 0 (by simp))]
    rw [ih (fun i hi => by
      have := h (i + 1) (by simp; omega)
      simpa using this)]

theorem noStartB_spec (g whole : List Char) (h : noStartB g whole = true) :
    ∀ i < g.length, soundLit.isPrefixOf (whole.drop i) = false := by
  intro i hi
  simp only [noStartB, List.all_eq_true, List.mem_range] at h
  have := h i hi
  simpa using this

theorem soundSearch_found (g x rest : List Char) (hx : okName x = true)
    (hg : ∀ i < g.length, soundLit.isPrefixOf ((g ++ (soundLit ++ (x ++ ']' :: rest))).drop i) = false) :
    soundSearch (g ++ (soundLit ++ (x ++ ']' :: rest))) = some (g, x, rest) := by
  rw [soundSearch_append _ _ hg, soundSearch_marker x rest hx]
  simp

theorem soundSub_assemble : ∀ (ms : List (List Char × List Char)) (g : List Char),
    wf g ms = true → soundSub (assemble g ms) = stripAll g ms := by
  intro ms
  induction ms with
  | nil =>
    intro g hwf
    exact soundSub_of_none g (soundSearch_none_of g (noStartB_spec g g hwf))
  | cons p ms ih =>
    obtain ⟨x, g'⟩ := p
    intro g hwf
    simp only [wf, Bool.and_eq_true] at hwf
    obtain ⟨⟨hx, hns⟩, hwf'⟩ := hwf
    have hfound : soundSearch (assemble g ((x, g') :: ms)) = some (g, x, assemble g' ms) :=
      soundSearch_found g x (assemble g' ms) hx (noStartB_spec _ _ hns)
    have hstep := soundSub_of_some _ g x _ hfound
    rw [hstep, ih g' hwf']
    rfl


theorem splitUS_no_sep (l : List Char) (h : usChar ∉ l) : splitUS l = [l] := by
  induction l with
  | nil => rfl
  | cons c rest ih =>
    have hc : ¬ c = usChar := fun he => h (by simp [he])
    have hrest : usChar ∉ rest := fun hm => h (by simp [hm])
    show (if c = usChar then [] :: splitUS rest
          else match splitUS rest with
               | h' :: t => (c :: h') :: t
               | [] => [[c]]) = [c :: rest]
    rw [if_neg hc, ih hrest]

theorem splitUS_append_sep (a b : List Char) (ha : usChar ∉ a) :
    splitUS (a ++ usChar :: b) = a :: splitUS b := by
  induction a with
  | nil =>
    show (if usChar = usChar then [] :: splitUS b
          else match splitUS b with
               | h' :: t => (usChar :: h') :: t
               | [] => [[usChar]]) = [] :: splitUS b
    rw [if_pos rfl]
  | cons c a' ih =>
    have hc : ¬ c = usChar := fun he => ha (by simp [he])
    have ha' : usChar ∉ a' := fun hm => ha (by simp [hm])
    show (if c = usChar then [] :: splitUS (a' ++ usChar :: b)
          else match splitUS (a' ++ usChar :: b) with
               | h' :: t => (c :: h') :: t
               | [] => [[c]]) = (c :: a') :: splitUS b
    rw [if_neg hc, ih ha']

theorem occursIn_append (g z : List Char) : occursIn soundLit (g ++ (soundLit ++ z)) = true := by
  induction g with
  | nil =>
    have e : occursIn soundLit (soundLit ++ z) =
        (soundLit.isPrefixOf (soundLit ++ z) ||
          occursIn soundLit ('s' :: 'o' :: 'u' :: 'n' :: 'd' :: ':' :: z)) := rfl
    show occursIn soundLit (soundLit ++ z) = true
    rw [e, soundLit_isPrefixOf z, Bool.true_or]
  | cons c g' ih =>
    show (soundLit.isPrefixOf (c :: (g' ++ (soundLit ++ z))) ||
          occursIn soundLit (g' ++ (soundLit ++ z))) = true
    rw [ih, Bool.or_true]

theorem processRow_markers (idv : Int) (tagsv : List Char) (now : Nat)
    (g x g' : List Char) (ms : List (List Char × List Char)) (back1 : List Char)
    (hwf : wf g ((x, g') :: ms) = true)
    (hf : usChar ∉ assemble g ((x, g') :: ms))
    (hb : usChar ∉ back1) :
    processRow now ⟨idv, assemble g ((x, g') :: ms) ++ usChar :: back1, tagsv⟩ =
      some { id := toString idv,
             front := trim (trim (stripAll g ((x, g') :: ms))),
             back := trim back1,
             audio_file := some x, tags := tagsv, due := now } := by
  have hsplit : splitUS (assemble g ((x, g') :: ms) ++ usChar :: back1) =
      assemble g ((x, g') :: ms) :: splitUS back1 := splitUS_append_sep _ _ hf
  have hback : splitUS back1 = [back1] := splitUS_no_sep back1 hb
  have hocc : occursIn soundLit (assemble g ((x, g') :: ms)) = true := occursIn_append g _
  have hwf0 := hwf
  simp only [wf, Bool.and_eq_true] at hwf
  obtain ⟨⟨hx, hns⟩, hwf'⟩ := hwf
  have hfound : soundSearch (assemble g ((x, g') :: ms)) = some (g, x, assemble g' ms) :=
    soundSearch_found g x (assemble g' ms) hx (noStartB_spec _ _ hns)
  have hsub : soundSub (assemble g ((x, g') :: ms)) = stripAll g ((x, g') :: ms) :=
    soundSub_assemble _ g hwf0
  simp only [processRow, hsplit, hback, hocc, if_true, hfound, hsub]


/-- Claim C7: for a front text containing exactly one marker, decomposed as
gap `g0`, marker `[sound:x]`, gap `g1` (with `x` capturable and `[sound:`
occurring nowhere else), the produced card's `audio_file` is exactly `x`
and its `front` is the text with the marker substring removed and
whitespace-trimmed (the code strips twice: after `re.sub` and when building
`card_data`). -/
theorem C7_single_marker (idv : Int) (tagsv : List Char) (now : Nat)
    (g0 x g1 back1 : List Char)
    (hwf : wf g0 [(x, g1)] = true)
    (hf : usChar ∉ assemble g0 [(x, g1)])
    (hb : usChar ∉ back1) :
    processRow now ⟨idv, assemble g0 [(x, g1)] ++ usChar :: back1, tagsv⟩ =
      some { id := toString idv, front := trim (trim (g0 ++ g1)), back := trim back1,
             audio_file := some x, tags := tagsv, due := now } :=
  processRow_markers idv tagsv now g0 x g1 [] back1 hwf hf hb

/-- Witness for C7 on the front text "Hello [sound:a.mp3]" with back
"Merhaba", parsed at clock 5. -/
theorem C7_single_marker_witness :
    wf "Hello ".toList [("a.mp3".toList, [])] = true ∧
    usChar ∉ assemble "Hello ".toList [("a.mp3".toList, [])] ∧
    usChar ∉ "Merhaba".toList ∧
    processRow 5 ⟨1, assemble "Hello ".toList [("a.mp3".toList, [])] ++ usChar :: "Merhaba".toList, []⟩ =
      some { id := "1", front := trim (trim ("Hello ".toList ++ [])),
             back := trim "Merhaba".toList,
             audio_file := some "a.mp3".toList, tags := [], due := 5 } :=
  ⟨by decide, by decide, by decide,
   C7_single_marker 1 [] 5 "Hello ".toList "a.mp3".toList [] "Merhaba".toList
     (by decide) (by decide) (by decide)⟩

/-- Claim C10: for a front text containing two or more markers
(decomposition `g0 [sound:x1] g1 [sound:x2] g2 ...`), every marker
substring is removed from the produced `front` (only the gaps remain,
whitespace-trimmed) and `audio_file` is the filename of the first,
leftmost marker. -/
theorem C10_multiple_markers (idv : Int) (tagsv : List Char) (now : Nat)
    (g0 x1 g1 : List Char) (ms : List (List Char × List Char)) (back1 : List Char)
    (hwf : wf g0 ((x1, g1) :: ms) = true)
    (hms : ms ≠ [])
    (hf : usChar ∉ assemble g0 ((x1, g1) :: ms))
    (hb : usChar ∉ back1) :
    processRow now ⟨idv, assemble g0 ((x1, g1) :: ms) ++ usChar :: back1, tagsv⟩ =
      some { id := toString idv,
             front := trim (trim (stripAll g0 ((x1, g1) :: ms))),
             back := trim back1,
             audio_file := some x1, tags := tagsv, due := now } :=
  processRow_markers idv tagsv now g0 x1 g1 ms back1 hwf hf hb

/-- Witness for C10 on the front text "A [sound:x.mp3] B [sound:y.mp3] C"
with back "D", parsed at clock 7: both markers disappear from the front and
`audio_file` is the first filename `x.mp3`. -/
theorem C10_multiple_markers_witness :
    wf "A ".toList [("x.mp3".toList, " B ".toList), ("y.mp3".toList, " C".toList)] = true ∧
    [("y.mp3".toList, " C".toList)] ≠ ([] : List (List Char × List Char)) ∧
    usChar ∉ assemble "A ".toList [("x.mp3".toList, " B ".toList), ("y.mp3".toList, " C".toList)] ∧
    usChar ∉ "D".toList ∧
    processRow 7 ⟨2, assemble "A ".toList
        [("x.mp3".toList, " B ".toList), ("y.mp3".toList, " C".toList)] ++ usChar :: "D".toList, []⟩ =
      some { id := "2",
             front := trim (trim (stripAll "A ".toList
               [("x.mp3".toList, " B ".toList), ("y.mp3".toList, " C".toList)])),
             back := trim "D".toList,
             audio_file := some "x.mp3".toList, tags := [], due := 7 } :=
  ⟨by decide, by decide, by decide, by decide,
   C10_multiple_markers 2 [] 7 "A ".toList "x.mp3".toList " B ".toList
     [("y.mp3".toList, " C".toList)] "D".toList (by decide) (by decide) (by decide) (by decide)⟩

end DictationApp
